import Mathlib

/-!
# Verification of the Jordan-Wigner transform in grove

Shallow embedding of `grove/fermion_transforms/jwtransform.py` together with
the fragment of the external pyquil Pauli algebra (`pyquil.paulis`) that the
transform uses.

Modelling choices, faithful to the source:

* Coefficients are complex numbers whose real and imaginary parts are exact
  dyadic rationals (`Dy`, a numerator over `2 ^ exp`, kept normalized).  Every
  coefficient manipulated by the transform is dyadic, and dyadic arithmetic of
  this magnitude is exact in IEEE floating point, so this models the Python
  `complex` arithmetic exactly.
* A pyquil `PauliTerm` is a coefficient together with a finite map from qubit
  index to a non-identity Pauli label; identity factors are dropped, as pyquil
  does.  We keep the map as a list sorted strictly by index, the canonical
  form pyquil's `id()`-keyed comparisons quotient by.
* A pyquil `PauliSum` is a list of terms.  `PauliSum` addition, subtraction,
  multiplication and scalar multiplication all return simplified sums, as
  pyquil's operators do; `simplify` merges like terms in order of first
  occurrence, drops terms with zero coefficient, and yields the singleton
  zero term when everything cancels.
* pyquil's module constants: `ID` is the identity term with coefficient 1.0
  and `ZERO` is the identity term with coefficient 0.0.
-/

/-- An exact dyadic rational `num / 2 ^ exp`.  All operations normalize, so a
value built by the operations below has `num` odd or `exp = 0`. -/
structure Dy where
  num : ℤ
  exp : ℕ
deriving DecidableEq, Repr

/-- Normalize a dyadic rational: cancel factors of two. -/
def dnorm : ℤ → ℕ → Dy
  | n, 0 => ⟨n, 0⟩
  | n, e + 1 => if n % 2 = 0 then dnorm (n / 2) e else ⟨n, e + 1⟩

def Dy.add (a b : Dy) : Dy :=
  dnorm (a.num * 2 ^ b.exp + b.num * 2 ^ a.exp) (a.exp + b.exp)

def Dy.mul (a b : Dy) : Dy := dnorm (a.num * b.num) (a.exp + b.exp)

def Dy.neg (a : Dy) : Dy := ⟨-a.num, a.exp⟩

def dyZero : Dy := ⟨0, 0⟩
def dyOne : Dy := ⟨1, 0⟩
def dyHalf : Dy := ⟨1, 1⟩
def dyQuarter : Dy := ⟨1, 2⟩
def dyEighth : Dy := ⟨1, 3⟩

/-- A complex number with dyadic real and imaginary parts; the coefficient
field of the embedded Pauli algebra. -/
structure GC where
  re : Dy
  im : Dy
deriving DecidableEq, Repr

def GC.add (a b : GC) : GC := ⟨a.re.add b.re, a.im.add b.im⟩

def GC.mul (a b : GC) : GC :=
  ⟨(a.re.mul b.re).add (a.im.mul b.im).neg, (a.re.mul b.im).add (a.im.mul b.re)⟩

def GC.neg (a : GC) : GC := ⟨a.re.neg, a.im.neg⟩

def gcZero : GC := ⟨dyZero, dyZero⟩
def gcOne : GC := ⟨dyOne, dyZero⟩
def gcNegOne : GC := ⟨⟨-1, 0⟩, dyZero⟩
def gcHalf : GC := ⟨dyHalf, dyZero⟩
def gcNegHalf : GC := ⟨⟨-1, 1⟩, dyZero⟩
def gcQuarter : GC := ⟨dyQuarter, dyZero⟩
def gcNegQuarter : GC := ⟨⟨-1, 2⟩, dyZero⟩
def gcEighth : GC := ⟨dyEighth, dyZero⟩
def gcImagUnit : GC := ⟨dyZero, dyOne⟩
def gcHalfImag : GC := ⟨dyZero, dyHalf⟩
def gcNegHalfImag : GC := ⟨dyZero, ⟨-1, 1⟩⟩

/-- The zero test pyquil's `simplify` applies to combined coefficients
(`np.isclose(coeff, 0)`; all coefficients here are exact dyadics). -/
def gcIsZero (a : GC) : Prop := a.re.num = 0 ∧ a.im.num = 0

instance (a : GC) : Decidable (gcIsZero a) := by unfold gcIsZero; infer_instance

/-- Single-qubit Pauli labels. -/
inductive Pauli
  | I
  | X
  | Y
  | Z
deriving DecidableEq, Repr

/-- Product of two single-qubit Pauli labels: the phase and resulting label
(`X*Y = i Z` and so on), as pyquil's `PAULI_PROD`/phase tables implement. -/
def mulP : Pauli → Pauli → GC × Pauli
  | Pauli.I, p => (gcOne, p)
  | p, Pauli.I => (gcOne, p)
  | Pauli.X, Pauli.X => (gcOne, Pauli.I)
  | Pauli.X, Pauli.Y => (gcImagUnit, Pauli.Z)
  | Pauli.X, Pauli.Z => (GC.neg gcImagUnit, Pauli.Y)
  | Pauli.Y, Pauli.X => (GC.neg gcImagUnit, Pauli.Z)
  | Pauli.Y, Pauli.Y => (gcOne, Pauli.I)
  | Pauli.Y, Pauli.Z => (gcImagUnit, Pauli.X)
  | Pauli.Z, Pauli.X => (gcImagUnit, Pauli.Y)
  | Pauli.Z, Pauli.Y => (GC.neg gcImagUnit, Pauli.X)
  | Pauli.Z, Pauli.Z => (gcOne, Pauli.I)

/-- A pyquil `PauliTerm`: a coefficient and a finite map index → label,
kept as a list sorted strictly by index with no identity entries. -/
structure PTerm where
  coeff : GC
  ops : List (ℕ × Pauli)
deriving DecidableEq, Repr

/-- Helper for `mergeOps`: merge the single pending entry `(i, a)` followed by
the (already merged against nothing) remainder handled by `step` into the
second operand.  `step ys` merges the tail of the first operand into `ys`. -/
def mergeInner (step : List (ℕ × Pauli) → GC × List (ℕ × Pauli))
    (tail1 : List (ℕ × Pauli)) (i : ℕ) (a : Pauli) :
    List (ℕ × Pauli) → GC × List (ℕ × Pauli)
  | [] => (gcOne, (i, a) :: tail1)
  | (j, b) :: ys =>
    if i < j then
      let r := step ((j, b) :: ys)
      (r.1, (i, a) :: r.2)
    else if j < i then
      let r := mergeInner step tail1 i a ys
      (r.1, (j, b) :: r.2)
    else
      let pc := mulP a b
      let r := step ys
      match pc.2 with
      | Pauli.I => (pc.1.mul r.1, r.2)
      | c => (pc.1.mul r.1, (i, c) :: r.2)

/-- Merge two sorted op-lists, multiplying coincident labels; returns the
accumulated phase and the merged sorted op-list.  This is pyquil's
`PauliTerm.__mul__` op-dictionary merge. -/
def mergeOps : List (ℕ × Pauli) → List (ℕ × Pauli) → GC × List (ℕ × Pauli)
  | [], ys => (gcOne, ys)
  | (i, a) :: xs, ys => mergeInner (fun l => mergeOps xs l) xs i a ys

/-- pyquil `PauliTerm * PauliTerm`. -/
def termMul (t u : PTerm) : PTerm :=
  let m := mergeOps t.ops u.ops
  ⟨(t.coeff.mul u.coeff).mul m.1, m.2⟩

/-- pyquil `PauliTerm(label, index, coeff)`: identity labels are dropped. -/
def pauliTerm (p : Pauli) (index : ℕ) (c : GC) : PTerm :=
  match p with
  | Pauli.I => ⟨c, []⟩
  | _ => ⟨c, [(index, p)]⟩

/-- `Number * PauliTerm` (scale a term by a scalar). -/
def scaleT (c : GC) (t : PTerm) : PTerm := ⟨c.mul t.coeff, t.ops⟩

/-- pyquil's `ID`: the identity term with coefficient 1.0. -/
def identityTerm : PTerm := ⟨gcOne, []⟩

/-- pyquil's `ZERO`: the identity term with coefficient 0.0. -/
def zeroTerm : PTerm := ⟨gcZero, []⟩

/-- A pyquil `PauliSum`: a list of terms. -/
abbrev PauliSum : Type := List PTerm

/-- Like-term combination of pyquil's `PauliSum.simplify`: group terms by
their op-list in order of first occurrence, sum each group's coefficients
and drop the group when the sum is zero.  `fuel` only bounds the recursion;
it is always called with at least the list length. -/
def combineFuel : ℕ → List PTerm → List PTerm
  | _, [] => []
  | 0, _ :: _ => []
  | f + 1, t :: rest =>
    let same := rest.filter (fun u => decide (u.ops = t.ops))
    let others := rest.filter (fun u => !decide (u.ops = t.ops))
    let csum := (same.map PTerm.coeff).foldl GC.add t.coeff
    if gcIsZero csum then combineFuel f others
    else ⟨csum, t.ops⟩ :: combineFuel f others

/-- pyquil `PauliSum.simplify`: combine like terms; a fully cancelled sum
becomes the singleton `ZERO` term. -/
def psSimplify (s : PauliSum) : PauliSum :=
  let r := combineFuel (List.length s) s
  if r = [] then [zeroTerm] else r

/-- pyquil `PauliSum + PauliSum` (concatenate, then simplify). -/
def psAdd (a b : PauliSum) : PauliSum := psSimplify (a ++ b)

/-- pyquil `Number * PauliSum` (scale each term, then simplify). -/
def psScale (c : GC) (s : PauliSum) : PauliSum :=
  psSimplify (s.map (fun t => scaleT c t))

/-- pyquil `PauliSum - PauliSum` (add the `(-1)`-scaled sum). -/
def psSub (a b : PauliSum) : PauliSum := psAdd a (psScale gcNegOne b)

/-- pyquil `PauliSum * PauliSum`: all pairwise term products in left-major
order, then simplify. -/
def psMul (a b : PauliSum) : PauliSum :=
  psSimplify ((a.map (fun ta => b.map (fun tb => termMul ta tb))).flatten)

/-- The coefficient a sum gives to one op-list: the sum of the coefficients
of all its terms carrying exactly that op-list. -/
def coeffAt (ops : List (ℕ × Pauli)) (s : PauliSum) : GC :=
  ((s.filter (fun u => decide (u.ops = ops))).map PTerm.coeff).foldl GC.add gcZero

/-- Observable equality of Pauli sums (pyquil's `==`, which compares
simplified sums): both sums give every op-list the same coefficient. -/
def psEqv (a b : PauliSum) : Prop := ∀ ops, coeffAt ops a = coeffAt ops b

/-- The Z-string over the half-open index range `[s, s + len)` as an op-list. -/
def zr (s len : ℕ) : List (ℕ × Pauli) :=
  (List.range' s len).map (fun j => (j, Pauli.Z))

/-- Product of `PauliTerm('Z', index)` over `range(s, s + len)`, starting from
the scalar 1, as the source's `z_chain` loops build it. -/
def zchainRange (s len : ℕ) : PTerm :=
  (List.range' s len).foldl (fun t j => termMul t (pauliTerm Pauli.Z j gcOne)) identityTerm

/-- `JWTransform._operator_generator(index, conj)`:
`Zstring * X_index * 0.5 + Zstring * Y_index * (0.5 * conj * i)`, simplified. -/
def operator_generator (index : ℕ) (conj : GC) : PauliSum :=
  let Zstring := (List.range index).foldl
    (fun t j => termMul t (pauliTerm Pauli.Z j gcOne)) identityTerm
  let pterm1 := termMul Zstring (pauliTerm Pauli.X index gcHalf)
  let scalar := (gcHalf.mul conj).mul gcImagUnit
  let pterm2 := termMul Zstring (pauliTerm Pauli.Y index scalar)
  psSimplify (psMul [identityTerm] (psAdd [pterm1] [pterm2]))

/-- `JWTransform.create(index)`: the generator with conjugation -1. -/
def create (index : ℕ) : PauliSum := operator_generator index gcNegOne

/-- `JWTransform.kill(index)`: the generator with conjugation +1. -/
def kill (index : ℕ) : PauliSum := operator_generator index gcOne

/-- `JWTransform.product_ops(indices, conjugate)` on the non-degenerate
path: left-to-right product of the single-mode images over
`zip(conjugate, indices)`, starting from the identity term, simplified once
at the end.  This models the source exactly whenever the zip is non-empty,
where the Python accumulator has already been promoted to a `PauliSum`
(whose `simplify` exists); see `product_ops_py` for the full
dynamically-typed behaviour including the empty-zip error path. -/
def product_ops (indices : List ℕ) (conjugate : List GC) : PauliSum :=
  psSimplify ((conjugate.zip indices).foldl
    (fun ps cj => psMul ps (operator_generator cj.2 cj.1)) [identityTerm])

/-- The dynamic type of the source's local `pterm` in `product_ops`: it is a
pyquil `PauliTerm` until the first multiplication and a `PauliSum` from then
on (pyquil `PauliTerm * PauliSum` returns a `PauliSum`). -/
inductive PyPauli
  | term (t : PTerm)
  | sum (s : PauliSum)
deriving DecidableEq, Repr

/-- pyquil multiplication of the dynamic accumulator by a `PauliSum`:
`PauliTerm.__mul__` promotes the term to the singleton sum first. -/
def pyMul : PyPauli → PauliSum → PyPauli
  | PyPauli.term t, s => PyPauli.sum (psMul [t] s)
  | PyPauli.sum a, s => PyPauli.sum (psMul a s)

/-- The source's final `pterm.simplify()`: pyquil defines `simplify` on
`PauliSum` only, so on a value still of type `PauliTerm` the attribute
lookup fails (AttributeError), modelled as `none`. -/
def pySimplify : PyPauli → Option PauliSum
  | PyPauli.term _ => none
  | PyPauli.sum s => some (psSimplify s)

/-- `JWTransform.product_ops(indices, conjugate)` with the source's dynamic
typing tracked: the accumulator starts as the identity `PauliTerm`, becomes
a `PauliSum` at the first loop iteration, and the final `simplify` exists
only on a `PauliSum` — so an empty `zip(conjugate, indices)` (either input
list empty) raises AttributeError, modelled as `none`. -/
def product_ops_py (indices : List ℕ) (conjugate : List GC) : Option PauliSum :=
  pySimplify ((conjugate.zip indices).foldl
    (fun p cj => pyMul p (operator_generator cj.2 cj.1)) (PyPauli.term identityTerm))

/-- `JWTransform.one_body_term(i, j)`. -/
def one_body_term (i j : ℕ) : PauliSum :=
  let lower := min i j
  let upper := max i j
  if lower ≠ upper then
    let z_chain := zchainRange (lower + 1) (upper - (lower + 1))
    psScale gcHalf ([Pauli.X, Pauli.Y].foldl
      (fun ps pauli =>
        psAdd ps [termMul (termMul (pauliTerm pauli lower gcOne) z_chain)
          (pauliTerm pauli upper gcOne)])
      ([zeroTerm] : PauliSum))
  else
    psAdd [pauliTerm Pauli.I lower gcOne] [pauliTerm Pauli.Z lower gcNegOne]

/-- The eight label triples of `itertools.product(['X','Y'], repeat=3)`. -/
def xyTriples : List (Pauli × Pauli × Pauli) :=
  [(Pauli.X, Pauli.X, Pauli.X), (Pauli.X, Pauli.X, Pauli.Y),
   (Pauli.X, Pauli.Y, Pauli.X), (Pauli.X, Pauli.Y, Pauli.Y),
   (Pauli.Y, Pauli.X, Pauli.X), (Pauli.Y, Pauli.X, Pauli.Y),
   (Pauli.Y, Pauli.Y, Pauli.X), (Pauli.Y, Pauli.Y, Pauli.Y)]

/-- Key order used by the source's `sorted(..., key=lambda pair: pair[0])`. -/
def keyLe (p q : ℕ × Pauli) : Prop := p.1 ≤ q.1

instance : DecidableRel keyLe := fun p q => by unfold keyLe; infer_instance

instance : IsTotal (ℕ × Pauli) keyLe := ⟨fun p q => Nat.le_total p.1 q.1⟩

instance : IsTrans (ℕ × Pauli) keyLe := ⟨fun _ _ _ h h2 => Nat.le_trans h h2⟩

/-- The interleaved tensor product the 4-distinct-index loop of
`two_body_term` assembles from the four sorted (index, label) pairs:
`op_a * Zchain(a,b) * op_b * op_c * Zchain(c,d) * op_d`.  The fallback is
unreachable: the sorted list always has exactly four pairs. -/
def jw4Operator : List (ℕ × Pauli) → PTerm
  | [(a, oa), (b, ob), (c, oc), (d, od)] =>
    termMul (termMul (termMul (termMul (termMul (pauliTerm oa a gcOne)
      (zchainRange (a + 1) (b - (a + 1)))) (pauliTerm ob b gcOne))
      (pauliTerm oc c gcOne)) (zchainRange (c + 1) (d - (c + 1))))
      (pauliTerm od d gcOne)
  | _ => identityTerm

/-- One iteration of the 4-distinct-index loop of `two_body_term`: the
contribution of one label triple, added to the running sum. -/
def twoBody4Step (i j k l : ℕ) (ps : PauliSum) (tri : Pauli × Pauli × Pauli) :
    PauliSum :=
  let op1 := tri.1
  let op2 := tri.2.1
  let op3 := tri.2.2
  let majority :=
    if ([op1, op2, op3].count Pauli.X) % 2 = 1 then Pauli.X else Pauli.Y
  match List.insertionSort keyLe [(i, op1), (j, op2), (k, op3), (l, majority)] with
  | [p1, p2, p3, p4] =>
    let operator := jw4Operator [p1, p2, p3, p4]
    let parity_condition := op1 ≠ op2 ∨ op1 = op3
    let coefficient :=
      if xor (j < i) (l < k) then
        if ¬parity_condition then gcNegOne.mul gcEighth else gcEighth
      else
        if parity_condition then gcNegOne.mul gcEighth else gcEighth
    psAdd ps [scaleT coefficient operator]
  | _ => ps
  -- the sorted list always has four elements, so the fallback is unreachable

/-- One iteration of the 3-distinct-index loop of `two_body_term` (the body of
`for operator in ['X', 'Y']`). -/
def twoBody3Step (i j k l a b c : ℕ) (ps : PauliSum) (op : Pauli) : PauliSum :=
  let z_chain := zchainRange (a + 1) (b - (a + 1))
  let pauli_z := pauliTerm Pauli.Z c gcOne
  let operators := termMul (termMul (pauliTerm op a gcOne) z_chain)
    (pauliTerm op b gcOne)
  let coefficient := if i = l ∨ j = k then gcQuarter else gcNegQuarter
  let hopping_term := scaleT coefficient operators
  psAdd (psSub ps [termMul pauli_z hopping_term]) [hopping_term]

/-- `JWTransform.two_body_term(i, j, k, l)`. -/
def two_body_term (i j k l : ℕ) : PauliSum :=
  if i = j ∨ k = l then [zeroTerm]
  else
    let ps : PauliSum := [identityTerm]
    let card := ([i, j, k, l] : List ℕ).dedup.length
    if card = 4 then
      xyTriples.foldl (twoBody4Step i j k l) ps
    else if card = 3 then
      let abc : ℕ × ℕ × ℕ :=
        if i = k then (min j l, max j l, i)
        else if i = l then (min j k, max j k, i)
        else if j = k then (min i l, max i l, j)
        else (min i k, max i k, j)
        -- final case: j = l; one of the four always holds when the
        -- distinct-index count is 3 and i ≠ j, k ≠ l
      [Pauli.X, Pauli.Y].foldl (twoBody3Step i j k l abc.1 abc.2.1 abc.2.2) ps
    else if card = 2 then
      let coefficient := if i = l then gcNegHalf else gcHalf
      let ps := psSub ps [⟨coefficient, []⟩]
      let ps := psAdd ps [pauliTerm Pauli.Z i coefficient]
      let ps := psAdd ps [pauliTerm Pauli.Z j coefficient]
      psSub ps [termMul (scaleT coefficient (pauliTerm Pauli.Z (min i j) gcOne))
        (pauliTerm Pauli.Z (max i j) gcOne)]
    else ps

/-- The brute-force Jordan-Wigner expansion of `a_i+ a_j+ a_k a_l + h.c.`
that the repository's own test suite compares `two_body_term` against. -/
def bruteTwoBody (i j k l : ℕ) : PauliSum :=
  psAdd (product_ops [i, j, k, l] [gcNegOne, gcNegOne, gcOne, gcOne])
    (product_ops [l, k, j, i] [gcNegOne, gcNegOne, gcOne, gcOne])

/-- Modelled from the spec: the closed form the spec asserts for the
2-distinct-index branch of `two_body_term`, namely
`-coefficient*I + coefficient*Z_i + coefficient*Z_j
 - coefficient*Z_min*Z_max` with coefficient `-0.5` when `i = l`
and `0.5` otherwise. -/
def specTwoBodyTwoDistinct (i j k l : ℕ) : PauliSum :=
  let coefficient := if i = l then gcNegHalf else gcHalf
  [⟨coefficient.neg, []⟩, ⟨coefficient, [(i, Pauli.Z)]⟩,
   ⟨coefficient, [(j, Pauli.Z)]⟩,
   ⟨coefficient.neg, [(min i j, Pauli.Z), (max i j, Pauli.Z)]⟩]

/-- Every term of the sum has a real coefficient. -/
def allReal (s : PauliSum) : Prop := ∀ t ∈ s, t.coeff.im.num = 0

/-- Coincident indices of the two op-lists always carry the same label
(in particular disjoint op-lists are compatible); merging compatible
op-lists produces no phase. -/
def opsCompat (xs ys : List (ℕ × Pauli)) : Prop :=
  ∀ n a b, (n, a) ∈ xs → (n, b) ∈ ys → a = b

theorem mergeOps_nil_left (ys : List (ℕ × Pauli)) : mergeOps [] ys = (gcOne, ys) := rfl

theorem mergeOps_append_high (h : ℕ) (B : Pauli) :
    ∀ xs : List (ℕ × Pauli), (∀ p ∈ xs, p.1 < h) →
      mergeOps xs [(h, B)] = (gcOne, xs ++ [(h, B)])
  | [], _ => rfl
  | (i, a) :: xs, hlt => by
    have hi : i < h := hlt (i, a) (List.mem_cons_self _ _)
    have ih := mergeOps_append_high h B xs (fun p hp => hlt p (List.mem_cons_of_mem _ hp))
    simp [mergeOps, mergeInner, hi, ih]

theorem mergeOps_single_low (a : ℕ) (op : Pauli) (ys : List (ℕ × Pauli))
    (hlt : ∀ p ∈ ys, a < p.1) : mergeOps [(a, op)] ys = (gcOne, (a, op) :: ys) := by
  cases ys with
  | nil => rfl
  | cons y ys =>
    obtain ⟨j, b⟩ := y
    have hj : a < j := hlt (j, b) (List.mem_cons_self _ _)
    simp [mergeOps, mergeInner, hj]

theorem zr_zero (s : ℕ) : zr s 0 = [] := rfl

theorem zr_succ (s k : ℕ) : zr s (k + 1) = (s, Pauli.Z) :: zr (s + 1) k := by
  simp [zr, List.range'_succ]

theorem zr_concat (s k : ℕ) : zr s (k + 1) = zr s k ++ [(s + k, Pauli.Z)] := by
  simp [zr, List.range'_concat]

theorem mem_zr {p : ℕ × Pauli} {s k : ℕ} (hp : p ∈ zr s k) :
    (s ≤ p.1 ∧ p.1 < s + k) ∧ p.2 = Pauli.Z := by
  simp only [zr, List.mem_map] at hp
  obtain ⟨m, hm, rfl⟩ := hp
  exact ⟨List.mem_range'_1.1 hm, rfl⟩

theorem mergeOps_zr_zr (u v : List (ℕ × Pauli))
    (hu : gcOne.mul (mergeOps u v).1 = (mergeOps u v).1) :
    ∀ s k, mergeOps (zr s k ++ u) (zr s k ++ v) = mergeOps u v := by
  intro s k
  induction k generalizing s with
  | zero => simp [zr_zero]
  | succ k ih =>
    rw [zr_succ]
    simp only [List.cons_append]
    simp [mergeOps, mergeInner, mulP, ih (s + 1), hu]

theorem mergeInner_phase_one (xs : List (ℕ × Pauli)) (i : ℕ) (a : Pauli)
    (houter : ∀ ys, opsCompat xs ys → (mergeOps xs ys).1 = gcOne) :
    ∀ ys, opsCompat ((i, a) :: xs) ys →
      (mergeInner (fun l => mergeOps xs l) xs i a ys).1 = gcOne
  | [], _ => rfl
  | (j, b) :: ys, hc => by
    by_cases hij : i < j
    · have h1 := houter ((j, b) :: ys)
        (fun n p q hp hq => hc n p q (List.mem_cons_of_mem _ hp) hq)
      simp [mergeInner, hij, h1]
    · by_cases hji : j < i
      · have ih := mergeInner_phase_one xs i a houter ys
          (fun n p q hp hq => hc n p q hp (List.mem_cons_of_mem _ hq))
        simp [mergeInner, hij, hji, ih]
      · have hije : i = j := Nat.le_antisymm (Nat.not_lt.1 hji) (Nat.not_lt.1 hij)
        subst hije
        have hab : a = b := hc i a b (List.mem_cons_self _ _) (List.mem_cons_self _ _)
        subst hab
        have h1 := houter ys
          (fun n p q hp hq => hc n p q (List.mem_cons_of_mem _ hp) (List.mem_cons_of_mem _ hq))
        cases a <;> simp [mergeInner, mulP, h1] <;> decide

theorem mergeOps_phase_one : ∀ xs ys : List (ℕ × Pauli),
    opsCompat xs ys → (mergeOps xs ys).1 = gcOne
  | [], _, _ => rfl
  | (i, a) :: xs, ys, h =>
    mergeInner_phase_one xs i a (fun ys2 h2 => mergeOps_phase_one xs ys2 h2) ys h

theorem mergeInner_keys (xs : List (ℕ × Pauli)) (i : ℕ) (a : Pauli)
    (houter : ∀ ys p, p ∈ (mergeOps xs ys).2 →
      p.1 ∈ xs.map Prod.fst ∨ p.1 ∈ ys.map Prod.fst) :
    ∀ ys p, p ∈ (mergeInner (fun l => mergeOps xs l) xs i a ys).2 →
      p.1 ∈ ((i, a) :: xs).map Prod.fst ∨ p.1 ∈ ys.map Prod.fst
  | [], p, hp => by
    simp only [mergeInner] at hp
    rcases List.mem_cons.1 hp with h | h
    · left; simp [h]
    · left
      simp only [List.map_cons, List.mem_cons]
      right
      exact List.mem_map_of_mem _ h
  | (j, b) :: ys, p, hp => by
    by_cases hij : i < j
    · simp only [mergeInner, hij, if_true] at hp
      rcases List.mem_cons.1 hp with h | h
      · left; simp [h]
      · rcases houter ((j, b) :: ys) p h with h2 | h2
        · left; simp only [List.map_cons, List.mem_cons]; right; exact h2
        · right; exact h2
    · by_cases hji : j < i
      · simp only [mergeInner, hij, if_false, hji, if_true] at hp
        rcases List.mem_cons.1 hp with h | h
        · right; simp [h]
        · rcases mergeInner_keys xs i a houter ys p h with h2 | h2
          · left; exact h2
          · right; simp only [List.map_cons, List.mem_cons]; right; exact h2
      · have hije : i = j := Nat.le_antisymm (Nat.not_lt.1 hji) (Nat.not_lt.1 hij)
        subst hije
        simp only [mergeInner, lt_self_iff_false, if_false] at hp
        rcases hmm : (mulP a b).2 with _ | _ | _ | _ <;> rw [hmm] at hp <;> dsimp only at hp
        · rcases houter ys p hp with h2 | h2
          · left; simp only [List.map_cons, List.mem_cons]; right; exact h2
          · right; simp only [List.map_cons, List.mem_cons]; right; exact h2
        all_goals
          rcases List.mem_cons.1 hp with h | h
          · left; simp [h]
          · rcases houter ys p h with h2 | h2
            · left; simp only [List.map_cons, List.mem_cons]; right; exact h2
            · right; simp only [List.map_cons, List.mem_cons]; right; exact h2

theorem mergeOps_keys : ∀ xs ys : List (ℕ × Pauli), ∀ p ∈ (mergeOps xs ys).2,
    p.1 ∈ xs.map Prod.fst ∨ p.1 ∈ ys.map Prod.fst
  | [], _, p, hp => Or.inr (List.mem_map_of_mem _ hp)
  | (i, a) :: xs, ys, p, hp =>
    mergeInner_keys xs i a (fun ys2 q hq => mergeOps_keys xs ys2 q hq) ys p hp

theorem psSimplify_singleton (t : PTerm) (ht : ¬ gcIsZero t.coeff) :
    psSimplify [t] = [t] := by
  obtain ⟨tc, tops⟩ := t
  simp [psSimplify, combineFuel, ht]

theorem psSimplify_pair (t u : PTerm) (hops : t.ops ≠ u.ops)
    (ht : ¬ gcIsZero t.coeff) (hu : ¬ gcIsZero u.coeff) :
    psSimplify [t, u] = [t, u] := by
  obtain ⟨tc, tops⟩ := t
  obtain ⟨uc, uops⟩ := u
  simp only at hops ht hu
  simp [psSimplify, combineFuel, ht, hu, Ne.symm hops]

theorem zstring_eq (n : ℕ) :
    (List.range n).foldl (fun t j => termMul t (pauliTerm Pauli.Z j gcOne))
      identityTerm = ⟨gcOne, zr 0 n⟩ := by
  induction n with
  | zero => rfl
  | succ n ih =>
    rw [List.range_succ, List.foldl_append, ih]
    have hb : ∀ p ∈ zr 0 n, p.1 < n := by
      intro p hp
      have := (mem_zr hp).1.2
      omega
    simp [termMul, pauliTerm, mergeOps_append_high n Pauli.Z (zr 0 n) hb, zr_concat]
    decide

theorem zchain_eq (s len : ℕ) : zchainRange s len = ⟨gcOne, zr s len⟩ := by
  induction len with
  | zero => rfl
  | succ k ih =>
    have hrange : List.range' s (k + 1) = List.range' s k ++ [s + k] := by
      have := @List.range'_concat 1 s k
      simpa using this
    have hb : ∀ p ∈ zr s k, p.1 < s + k := by
      intro p hp
      exact (mem_zr hp).1.2
    unfold zchainRange at ih ⊢
    rw [hrange, List.foldl_append, ih]
    simp [termMul, pauliTerm, mergeOps_append_high (s + k) Pauli.Z (zr s k) hb, zr_concat]
    decide

theorem sandwich_eq (a b : ℕ) (hab : a < b) (op : Pauli) (hop : op ≠ Pauli.I) :
    termMul (termMul (pauliTerm op a gcOne) (zchainRange (a + 1) (b - (a + 1))))
      (pauliTerm op b gcOne)
      = ⟨gcOne, (a, op) :: zr (a + 1) (b - (a + 1)) ++ [(b, op)]⟩ := by
  have hsingle : pauliTerm op a gcOne = ⟨gcOne, [(a, op)]⟩ := by
    cases op <;> simp_all [pauliTerm]
  have hsingleb : pauliTerm op b gcOne = ⟨gcOne, [(b, op)]⟩ := by
    cases op <;> simp_all [pauliTerm]
  rw [zchain_eq, hsingle, hsingleb]
  have hlow : ∀ p ∈ zr (a + 1) (b - (a + 1)), a < p.1 := by
    intro p hp
    have := (mem_zr hp).1.1
    omega
  have hhigh : ∀ p ∈ (a, op) :: zr (a + 1) (b - (a + 1)), p.1 < b := by
    intro p hp
    rcases List.mem_cons.1 hp with h | h
    · rw [h]; exact hab
    · have := (mem_zr h).1.2
      omega
  simp only [termMul, mergeOps_single_low a op _ hlow,
    mergeOps_append_high b op _ hhigh]
  simp
  decide

theorem termMul_identity (t : PTerm) :
    termMul identityTerm t = ⟨(gcOne.mul t.coeff).mul gcOne, t.ops⟩ := rfl

theorem opgen_eval (n : ℕ) (c t2c : GC)
    (h2 : (gcOne.mul ((gcHalf.mul c).mul gcImagUnit)).mul gcOne = t2c)
    (h2b : (gcOne.mul t2c).mul gcOne = t2c)
    (hnz : ¬ gcIsZero t2c) :
    operator_generator n c
      = [⟨gcHalf, zr 0 n ++ [(n, Pauli.X)]⟩, ⟨t2c, zr 0 n ++ [(n, Pauli.Y)]⟩] := by
  have hb : ∀ p ∈ zr 0 n, p.1 < n := by
    intro p hp
    have := (mem_zr hp).1.2
    omega
  have hx := mergeOps_append_high n Pauli.X (zr 0 n) hb
  have hy := mergeOps_append_high n Pauli.Y (zr 0 n) hb
  have hops : zr 0 n ++ [(n, Pauli.X)] ≠ zr 0 n ++ [(n, Pauli.Y)] := by
    intro h
    have := List.append_cancel_left h
    simp at this
  have e1 : (gcOne.mul gcHalf).mul gcOne = gcHalf := by decide
  have epair := psSimplify_pair ⟨gcHalf, zr 0 n ++ [(n, Pauli.X)]⟩
    ⟨t2c, zr 0 n ++ [(n, Pauli.Y)]⟩ hops
    (show ¬ gcIsZero gcHalf by decide) hnz
  have hmul : psMul [identityTerm]
      [⟨gcHalf, zr 0 n ++ [(n, Pauli.X)]⟩, ⟨t2c, zr 0 n ++ [(n, Pauli.Y)]⟩]
      = [⟨gcHalf, zr 0 n ++ [(n, Pauli.X)]⟩, ⟨t2c, zr 0 n ++ [(n, Pauli.Y)]⟩] := by
    have hstep : psMul [identityTerm]
        [⟨gcHalf, zr 0 n ++ [(n, Pauli.X)]⟩, ⟨t2c, zr 0 n ++ [(n, Pauli.Y)]⟩]
        = psSimplify [termMul identityTerm ⟨gcHalf, zr 0 n ++ [(n, Pauli.X)]⟩,
            termMul identityTerm ⟨t2c, zr 0 n ++ [(n, Pauli.Y)]⟩] := by
      simp [psMul]
    rw [hstep, termMul_identity, termMul_identity]
    simp only [e1, h2b]
    exact epair
  unfold operator_generator
  rw [zstring_eq]
  simp only [termMul, pauliTerm, hx, hy]
  rw [e1, h2]
  rw [show psAdd [(⟨gcHalf, zr 0 n ++ [(n, Pauli.X)]⟩ : PTerm)]
      [⟨t2c, zr 0 n ++ [(n, Pauli.Y)]⟩]
      = [⟨gcHalf, zr 0 n ++ [(n, Pauli.X)]⟩, ⟨t2c, zr 0 n ++ [(n, Pauli.Y)]⟩] from epair]
  rw [hmul]
  exact epair

theorem create_eq (n : ℕ) :
    create n = [⟨gcHalf, zr 0 n ++ [(n, Pauli.X)]⟩,
      ⟨gcNegHalfImag, zr 0 n ++ [(n, Pauli.Y)]⟩] :=
  opgen_eval n gcNegOne gcNegHalfImag (by decide) (by decide) (by decide)

theorem kill_eq (n : ℕ) :
    kill n = [⟨gcHalf, zr 0 n ++ [(n, Pauli.X)]⟩,
      ⟨gcHalfImag, zr 0 n ++ [(n, Pauli.Y)]⟩] :=
  opgen_eval n gcOne gcHalfImag (by decide) (by decide) (by decide)

theorem psMul_identity_pair (t u : PTerm)
    (h1 : (gcOne.mul t.coeff).mul gcOne = t.coeff)
    (h2 : (gcOne.mul u.coeff).mul gcOne = u.coeff)
    (hops : t.ops ≠ u.ops) (ht : ¬ gcIsZero t.coeff) (hu : ¬ gcIsZero u.coeff) :
    psMul [identityTerm] [t, u] = [t, u] := by
  have hstep : psMul [identityTerm] [t, u]
      = psSimplify [termMul identityTerm t, termMul identityTerm u] := by
    simp [psMul]
  have ht1 : termMul identityTerm t = t := by
    rw [termMul_identity, h1]
  have ht2 : termMul identityTerm u = u := by
    rw [termMul_identity, h2]
  rw [hstep, ht1, ht2]
  exact psSimplify_pair t u hops ht hu

theorem psSimplify_zero_cons (t : PTerm) (h : t.ops ≠ [])
    (hnz : ¬ gcIsZero t.coeff) : psSimplify [zeroTerm, t] = [t] := by
  obtain ⟨tc, tops⟩ := t
  simp only at h hnz
  have hz : gcIsZero gcZero := by decide
  simp [psSimplify, combineFuel, zeroTerm, h, hz, hnz]

/-- Claim C2: for every mode index n, `create n` is the simplified Pauli sum
`(Z_0 ... Z_{n-1}) * (X_n/2 - i Y_n/2)` and `kill n` is
`(Z_0 ... Z_{n-1}) * (X_n/2 + i Y_n/2)`; in particular `create 5` is
`0.5 Z0 Z1 Z2 Z3 Z4 X5 - 0.5 i Z0 Z1 Z2 Z3 Z4 Y5`. -/
theorem claim_C2_create_kill_closed_form :
    (∀ n : ℕ,
      create n = [⟨gcHalf, zr 0 n ++ [(n, Pauli.X)]⟩,
        ⟨gcNegHalfImag, zr 0 n ++ [(n, Pauli.Y)]⟩] ∧
      kill n = [⟨gcHalf, zr 0 n ++ [(n, Pauli.X)]⟩,
        ⟨gcHalfImag, zr 0 n ++ [(n, Pauli.Y)]⟩]) ∧
    create 5 = [⟨gcHalf, [(0, Pauli.Z), (1, Pauli.Z), (2, Pauli.Z), (3, Pauli.Z),
        (4, Pauli.Z), (5, Pauli.X)]⟩,
      ⟨gcNegHalfImag, [(0, Pauli.Z), (1, Pauli.Z), (2, Pauli.Z), (3, Pauli.Z),
        (4, Pauli.Z), (5, Pauli.Y)]⟩] :=
  ⟨fun n => ⟨create_eq n, kill_eq n⟩, (create_eq 5).trans (by decide)⟩

/-- Claim C5: for distinct indices the one-body term is exactly
`0.5 (X_lo Zchain X_hi + Y_lo Zchain Y_hi)` with the Z chain over the open
interval between the two indices. -/
theorem claim_C5_one_body_closed_form (i j : ℕ) (hij : i ≠ j) :
    one_body_term i j =
      [⟨gcHalf, (min i j, Pauli.X) ::
          zr (min i j + 1) (max i j - (min i j + 1)) ++ [(max i j, Pauli.X)]⟩,
       ⟨gcHalf, (min i j, Pauli.Y) ::
          zr (min i j + 1) (max i j - (min i j + 1)) ++ [(max i j, Pauli.Y)]⟩] := by
  have hlt : min i j < max i j := min_lt_max.2 hij
  have hxs := sandwich_eq (min i j) (max i j) hlt Pauli.X (by simp)
  have hys := sandwich_eq (min i j) (max i j) hlt Pauli.Y (by simp)
  have hne : ((min i j, Pauli.X) ::
        zr (min i j + 1) (max i j - (min i j + 1)) ++ [(max i j, Pauli.X)])
      ≠ ((min i j, Pauli.Y) ::
        zr (min i j + 1) (max i j - (min i j + 1)) ++ [(max i j, Pauli.Y)]) := by
    intro h
    simp at h
  unfold one_body_term
  rw [if_pos (show min i j ≠ max i j from Nat.ne_of_lt hlt)]
  simp only [List.foldl]
  rw [hxs, hys]
  have h1 : psAdd [zeroTerm] [(⟨gcOne, (min i j, Pauli.X) ::
      zr (min i j + 1) (max i j - (min i j + 1)) ++ [(max i j, Pauli.X)]⟩ : PTerm)]
      = [⟨gcOne, (min i j, Pauli.X) ::
        zr (min i j + 1) (max i j - (min i j + 1)) ++ [(max i j, Pauli.X)]⟩] :=
    psSimplify_zero_cons _ (by simp) (show ¬ gcIsZero gcOne by decide)
  have h2 : psAdd [(⟨gcOne, (min i j, Pauli.X) ::
      zr (min i j + 1) (max i j - (min i j + 1)) ++ [(max i j, Pauli.X)]⟩ : PTerm)]
      [⟨gcOne, (min i j, Pauli.Y) ::
        zr (min i j + 1) (max i j - (min i j + 1)) ++ [(max i j, Pauli.Y)]⟩]
      = [⟨gcOne, (min i j, Pauli.X) ::
          zr (min i j + 1) (max i j - (min i j + 1)) ++ [(max i j, Pauli.X)]⟩,
         ⟨gcOne, (min i j, Pauli.Y) ::
          zr (min i j + 1) (max i j - (min i j + 1)) ++ [(max i j, Pauli.Y)]⟩] :=
    psSimplify_pair _ _ hne (show ¬ gcIsZero gcOne by decide)
      (show ¬ gcIsZero gcOne by decide)
  rw [h1, h2]
  simp only [psScale, List.map, scaleT]
  rw [show gcHalf.mul gcOne = gcHalf by decide]
  exact psSimplify_pair _ _ hne (show ¬ gcIsZero gcHalf by decide)
    (show ¬ gcIsZero gcHalf by decide)

theorem claim_C5_witness :
    (0 : ℕ) ≠ 2 ∧ one_body_term 0 2 =
      [⟨gcHalf, [(0, Pauli.X), (1, Pauli.Z), (2, Pauli.X)]⟩,
       ⟨gcHalf, [(0, Pauli.Y), (1, Pauli.Z), (2, Pauli.Y)]⟩] :=
  ⟨by decide, (claim_C5_one_body_closed_form 0 2 (by decide)).trans (by decide)⟩

/-- Claim C9: the one-body constructor is symmetric in its two arguments. -/
theorem claim_C9_one_body_symmetric (i j : ℕ) :
    one_body_term i j = one_body_term j i := by
  unfold one_body_term
  rw [min_comm i j, max_comm i j]

/-- Claim C8: when `i = j` or `k = l`, `two_body_term` returns the zero
Pauli sum (the singleton pyquil `ZERO` term). -/
theorem claim_C8_two_body_degenerate (i j k l : ℕ) (h : i = j ∨ k = l) :
    two_body_term i j k l = [zeroTerm] := by
  unfold two_body_term
  rw [if_pos h]

theorem claim_C8_witness :
    ((0 : ℕ) = 0 ∨ (1 : ℕ) = 2) ∧ two_body_term 0 0 1 2 = [zeroTerm] :=
  ⟨Or.inl rfl, claim_C8_two_body_degenerate 0 0 1 2 (Or.inl rfl)⟩

theorem zip_take_eq (a : List GC) : ∀ b : List ℕ,
    a.zip b = (a.take (min a.length b.length)).zip (b.take (min a.length b.length)) := by
  induction a with
  | nil => intro b; simp
  | cons x xs ih =>
    intro b
    cases b with
    | nil => simp
    | cons y ys =>
      simp only [List.zip_cons_cons, List.length_cons, Nat.succ_min_succ,
        List.take_succ_cons]
      exact congrArg _ (ih ys)

theorem psSimplify_abba (c1 c2 c3 c4 : GC) (ops1 ops2 : List (ℕ × Pauli))
    (hne : ops1 ≠ ops2)
    (h14 : ¬ gcIsZero (GC.add c1 c4)) (h23 : ¬ gcIsZero (GC.add c2 c3)) :
    psSimplify [⟨c1, ops1⟩, ⟨c2, ops2⟩, ⟨c3, ops2⟩, ⟨c4, ops1⟩]
      = [⟨GC.add c1 c4, ops1⟩, ⟨GC.add c2 c3, ops2⟩] := by
  simp [psSimplify, combineFuel, hne, Ne.symm hne, h14, h23]

theorem psSimplify_abab (c1 c2 c3 c4 : GC) (ops1 ops2 : List (ℕ × Pauli))
    (hne : ops1 ≠ ops2)
    (h13 : ¬ gcIsZero (GC.add c1 c3)) (h24 : ¬ gcIsZero (GC.add c2 c4)) :
    psSimplify [⟨c1, ops1⟩, ⟨c2, ops2⟩, ⟨c3, ops1⟩, ⟨c4, ops2⟩]
      = [⟨GC.add c1 c3, ops1⟩, ⟨GC.add c2 c4, ops2⟩] := by
  simp [psSimplify, combineFuel, hne, Ne.symm hne, h13, h24]

theorem mergeOps_single_XX (i : ℕ) :
    mergeOps [(i, Pauli.X)] [(i, Pauli.X)] = (gcOne.mul gcOne, []) := by
  simp [mergeOps, mergeInner, mulP]

theorem mergeOps_single_XY (i : ℕ) :
    mergeOps [(i, Pauli.X)] [(i, Pauli.Y)] = (gcImagUnit.mul gcOne, [(i, Pauli.Z)]) := by
  simp [mergeOps, mergeInner, mulP]

theorem mergeOps_single_YX (i : ℕ) :
    mergeOps [(i, Pauli.Y)] [(i, Pauli.X)]
      = ((GC.neg gcImagUnit).mul gcOne, [(i, Pauli.Z)]) := by
  simp [mergeOps, mergeInner, mulP]

theorem mergeOps_single_YY (i : ℕ) :
    mergeOps [(i, Pauli.Y)] [(i, Pauli.Y)] = (gcOne.mul gcOne, []) := by
  simp [mergeOps, mergeInner, mulP]

theorem product_ops_pair (p q : ℕ) (c1 c2 : GC) :
    product_ops [p, q] [c1, c2]
      = psSimplify (psMul (psMul [identityTerm] (operator_generator p c1))
          (operator_generator q c2)) := by
  unfold product_ops
  apply congrArg psSimplify
  simp only [List.zip_cons_cons, List.zip_nil_left, List.zip_nil_right,
    List.foldl_cons, List.foldl_nil]

theorem number_operator_eq (i : ℕ) :
    product_ops [i, i] [gcNegOne, gcOne]
      = [⟨gcHalf, []⟩, ⟨gcNegHalf, [(i, Pauli.Z)]⟩] := by
  have hc := opgen_eval i gcNegOne gcNegHalfImag (by decide) (by decide) (by decide)
  have hk := opgen_eval i gcOne gcHalfImag (by decide) (by decide) (by decide)
  have hops : zr 0 i ++ [(i, Pauli.X)] ≠ zr 0 i ++ [(i, Pauli.Y)] := by
    intro h
    have := List.append_cancel_left h
    simp at this
  have MXX : mergeOps (zr 0 i ++ [(i, Pauli.X)]) (zr 0 i ++ [(i, Pauli.X)])
      = (gcOne.mul gcOne, []) :=
    (mergeOps_zr_zr [(i, Pauli.X)] [(i, Pauli.X)]
      (by rw [mergeOps_single_XX]; rfl) 0 i).trans (mergeOps_single_XX i)
  have MXY : mergeOps (zr 0 i ++ [(i, Pauli.X)]) (zr 0 i ++ [(i, Pauli.Y)])
      = (gcImagUnit.mul gcOne, [(i, Pauli.Z)]) :=
    (mergeOps_zr_zr [(i, Pauli.X)] [(i, Pauli.Y)]
      (by rw [mergeOps_single_XY]; rfl) 0 i).trans (mergeOps_single_XY i)
  have MYX : mergeOps (zr 0 i ++ [(i, Pauli.Y)]) (zr 0 i ++ [(i, Pauli.X)])
      = ((GC.neg gcImagUnit).mul gcOne, [(i, Pauli.Z)]) :=
    (mergeOps_zr_zr [(i, Pauli.Y)] [(i, Pauli.X)]
      (by rw [mergeOps_single_YX]; rfl) 0 i).trans (mergeOps_single_YX i)
  have MYY : mergeOps (zr 0 i ++ [(i, Pauli.Y)]) (zr 0 i ++ [(i, Pauli.Y)])
      = (gcOne.mul gcOne, []) :=
    (mergeOps_zr_zr [(i, Pauli.Y)] [(i, Pauli.Y)]
      (by rw [mergeOps_single_YY]; rfl) 0 i).trans (mergeOps_single_YY i)
  have e11 : termMul ⟨gcHalf, zr 0 i ++ [(i, Pauli.X)]⟩
      ⟨gcHalf, zr 0 i ++ [(i, Pauli.X)]⟩ = ⟨gcQuarter, []⟩ := by
    simp only [termMul, MXX]
    rw [show (gcHalf.mul gcHalf).mul (gcOne.mul gcOne) = gcQuarter by decide]
  have e12 : termMul ⟨gcHalf, zr 0 i ++ [(i, Pauli.X)]⟩
      ⟨gcHalfImag, zr 0 i ++ [(i, Pauli.Y)]⟩ = ⟨gcNegQuarter, [(i, Pauli.Z)]⟩ := by
    simp only [termMul, MXY]
    rw [show (gcHalf.mul gcHalfImag).mul (gcImagUnit.mul gcOne) = gcNegQuarter by decide]
  have e21 : termMul ⟨gcNegHalfImag, zr 0 i ++ [(i, Pauli.Y)]⟩
      ⟨gcHalf, zr 0 i ++ [(i, Pauli.X)]⟩ = ⟨gcNegQuarter, [(i, Pauli.Z)]⟩ := by
    simp only [termMul, MYX]
    rw [show (gcNegHalfImag.mul gcHalf).mul ((GC.neg gcImagUnit).mul gcOne)
      = gcNegQuarter by decide]
  have e22 : termMul ⟨gcNegHalfImag, zr 0 i ++ [(i, Pauli.Y)]⟩
      ⟨gcHalfImag, zr 0 i ++ [(i, Pauli.Y)]⟩ = ⟨gcQuarter, []⟩ := by
    simp only [termMul, MYY]
    rw [show (gcNegHalfImag.mul gcHalfImag).mul (gcOne.mul gcOne) = gcQuarter by decide]
  have hid : psMul [identityTerm]
      [(⟨gcHalf, zr 0 i ++ [(i, Pauli.X)]⟩ : PTerm),
       ⟨gcNegHalfImag, zr 0 i ++ [(i, Pauli.Y)]⟩]
      = [(⟨gcHalf, zr 0 i ++ [(i, Pauli.X)]⟩ : PTerm),
         ⟨gcNegHalfImag, zr 0 i ++ [(i, Pauli.Y)]⟩] :=
    psMul_identity_pair _ _ (show (gcOne.mul gcHalf).mul gcOne = gcHalf by decide)
      (show (gcOne.mul gcNegHalfImag).mul gcOne = gcNegHalfImag by decide) hops
      (show ¬ gcIsZero gcHalf by decide) (show ¬ gcIsZero gcNegHalfImag by decide)
  have hraw : psMul
      [(⟨gcHalf, zr 0 i ++ [(i, Pauli.X)]⟩ : PTerm),
       ⟨gcNegHalfImag, zr 0 i ++ [(i, Pauli.Y)]⟩]
      [(⟨gcHalf, zr 0 i ++ [(i, Pauli.X)]⟩ : PTerm),
       ⟨gcHalfImag, zr 0 i ++ [(i, Pauli.Y)]⟩]
      = psSimplify [⟨gcQuarter, []⟩, ⟨gcNegQuarter, [(i, Pauli.Z)]⟩,
          ⟨gcNegQuarter, [(i, Pauli.Z)]⟩, ⟨gcQuarter, []⟩] := by
    unfold psMul
    simp only [List.map_cons, List.map_nil, List.flatten]
    rw [e11, e12, e21, e22]
    simp
  have habba : psSimplify [(⟨gcQuarter, []⟩ : PTerm), ⟨gcNegQuarter, [(i, Pauli.Z)]⟩,
      ⟨gcNegQuarter, [(i, Pauli.Z)]⟩, ⟨gcQuarter, []⟩]
      = [⟨gcHalf, []⟩, ⟨gcNegHalf, [(i, Pauli.Z)]⟩] := by
    have h0 := psSimplify_abba gcQuarter gcNegQuarter gcNegQuarter gcQuarter
      [] [(i, Pauli.Z)] (by simp) (by decide) (by decide)
    rw [h0]
    rw [show GC.add gcQuarter gcQuarter = gcHalf by decide,
      show GC.add gcNegQuarter gcNegQuarter = gcNegHalf by decide]
  calc product_ops [i, i] [gcNegOne, gcOne]
      = psSimplify (psMul (psMul [identityTerm] (operator_generator i gcNegOne))
          (operator_generator i gcOne)) := product_ops_pair i i gcNegOne gcOne
    _ = psSimplify (psMul (psMul [identityTerm]
          [(⟨gcHalf, zr 0 i ++ [(i, Pauli.X)]⟩ : PTerm),
           ⟨gcNegHalfImag, zr 0 i ++ [(i, Pauli.Y)]⟩])
          [(⟨gcHalf, zr 0 i ++ [(i, Pauli.X)]⟩ : PTerm),
           ⟨gcHalfImag, zr 0 i ++ [(i, Pauli.Y)]⟩]) := by rw [hc, hk]
    _ = psSimplify (psMul
          [(⟨gcHalf, zr 0 i ++ [(i, Pauli.X)]⟩ : PTerm),
           ⟨gcNegHalfImag, zr 0 i ++ [(i, Pauli.Y)]⟩]
          [(⟨gcHalf, zr 0 i ++ [(i, Pauli.X)]⟩ : PTerm),
           ⟨gcHalfImag, zr 0 i ++ [(i, Pauli.Y)]⟩]) := by rw [hid]
    _ = psSimplify (psSimplify [⟨gcQuarter, []⟩, ⟨gcNegQuarter, [(i, Pauli.Z)]⟩,
          ⟨gcNegQuarter, [(i, Pauli.Z)]⟩, ⟨gcQuarter, []⟩]) := by rw [hraw]
    _ = psSimplify [⟨gcHalf, []⟩, ⟨gcNegHalf, [(i, Pauli.Z)]⟩] := by rw [habba]
    _ = [⟨gcHalf, []⟩, ⟨gcNegHalf, [(i, Pauli.Z)]⟩] :=
        psSimplify_pair _ _ (by simp) (show ¬ gcIsZero gcHalf by decide)
          (show ¬ gcIsZero gcNegHalf by decide)

/-- Claim C6: `one_body_term i i` is exactly `I + (-1) Z_i`, and equals the
diagonal doubling `product_ops [i,i] [-1,1] + product_ops [i,i] [-1,1]`. -/
theorem claim_C6_one_body_diagonal (i : ℕ) :
    one_body_term i i = [⟨gcOne, []⟩, ⟨gcNegOne, [(i, Pauli.Z)]⟩] ∧
    one_body_term i i = psAdd (product_ops [i, i] [gcNegOne, gcOne])
      (product_ops [i, i] [gcNegOne, gcOne]) := by
  have hbase : one_body_term i i = [⟨gcOne, []⟩, ⟨gcNegOne, [(i, Pauli.Z)]⟩] := by
    unfold one_body_term
    rw [if_neg (show ¬ (min i i ≠ max i i) by simp)]
    rw [min_self]
    exact psSimplify_pair ⟨gcOne, []⟩ ⟨gcNegOne, [(i, Pauli.Z)]⟩ (by simp)
      (show ¬ gcIsZero gcOne by decide) (show ¬ gcIsZero gcNegOne by decide)
  refine ⟨hbase, ?_⟩
  have hdouble : psAdd [(⟨gcHalf, []⟩ : PTerm), ⟨gcNegHalf, [(i, Pauli.Z)]⟩]
      [(⟨gcHalf, []⟩ : PTerm), ⟨gcNegHalf, [(i, Pauli.Z)]⟩]
      = [⟨GC.add gcHalf gcHalf, []⟩, ⟨GC.add gcNegHalf gcNegHalf, [(i, Pauli.Z)]⟩] :=
    psSimplify_abab gcHalf gcNegHalf gcHalf gcNegHalf [] [(i, Pauli.Z)]
      (by simp) (by decide) (by decide)
  calc one_body_term i i
      = [⟨gcOne, []⟩, ⟨gcNegOne, [(i, Pauli.Z)]⟩] := hbase
    _ = [⟨GC.add gcHalf gcHalf, []⟩, ⟨GC.add gcNegHalf gcNegHalf, [(i, Pauli.Z)]⟩] := by
        rw [show GC.add gcHalf gcHalf = gcOne by decide,
          show GC.add gcNegHalf gcNegHalf = gcNegOne by decide]
    _ = psAdd [(⟨gcHalf, []⟩ : PTerm), ⟨gcNegHalf, [(i, Pauli.Z)]⟩]
          [(⟨gcHalf, []⟩ : PTerm), ⟨gcNegHalf, [(i, Pauli.Z)]⟩] := hdouble.symm
    _ = psAdd (product_ops [i, i] [gcNegOne, gcOne])
          (product_ops [i, i] [gcNegOne, gcOne]) := by rw [number_operator_eq]

/-- Claim C1 (refuted, code bug): at the repository's own test input
`(1, 2, 2, 1)` the code's `two_body_term` gives the identity op-list the
coefficient 3/2 while the brute-force Jordan-Wigner expansion
`product_ops([1,2,2,1],[-1,-1,1,1]) + product_ops([1,2,2,1],[-1,-1,1,1])`
gives it 1/2, so the two sums are not equal: the `ps = PauliSum([ID])`
initialisation leaks a spurious `+1*I` into every non-degenerate branch. -/
theorem claim_C1_two_body_brute_force_mismatch :
    coeffAt [] (two_body_term 1 2 2 1) = ⟨⟨3, 1⟩, ⟨0, 0⟩⟩ ∧
    coeffAt [] (bruteTwoBody 1 2 2 1) = gcHalf ∧
    ¬ psEqv (two_body_term 1 2 2 1) (bruteTwoBody 1 2 2 1) := by
  refine ⟨by decide, by decide, fun h => ?_⟩
  have h0 := h []
  rw [(by decide : coeffAt [] (two_body_term 1 2 2 1) = (⟨⟨3, 1⟩, ⟨0, 0⟩⟩ : GC)),
    (by decide : coeffAt [] (bruteTwoBody 1 2 2 1) = gcHalf)] at h0
  exact absurd h0 (by decide)

/-- Claim C3 (refuted, code bug): in the 2-distinct-index branch the code
returns `(1 - coefficient) * I + ...` rather than the specified
`-coefficient * I + ...`: at `(0, 1, 1, 0)` (coefficient -0.5) the identity
term has coefficient 3/2, not 1/2, so the result is not the specified
four-term sum. -/
theorem claim_C3_two_distinct_identity_mismatch :
    two_body_term 0 1 1 0
      = [⟨⟨⟨3, 1⟩, ⟨0, 0⟩⟩, []⟩, ⟨gcNegHalf, [(0, Pauli.Z)]⟩,
         ⟨gcNegHalf, [(1, Pauli.Z)]⟩, ⟨gcHalf, [(0, Pauli.Z), (1, Pauli.Z)]⟩] ∧
    ¬ psEqv (two_body_term 0 1 1 0) (specTwoBodyTwoDistinct 0 1 1 0) := by
  refine ⟨by decide, fun h => ?_⟩
  have h0 := h []
  rw [(by decide : coeffAt [] (two_body_term 0 1 1 0) = (⟨⟨3, 1⟩, ⟨0, 0⟩⟩ : GC)),
    (by decide : coeffAt [] (specTwoBodyTwoDistinct 0 1 1 0) = gcHalf)] at h0
  exact absurd h0 (by decide)

theorem combineFuel_keys : ∀ (f : ℕ) (s : List PTerm), ∀ u ∈ combineFuel f s,
    u.ops ∈ s.map PTerm.ops := by
  intro f
  induction f with
  | zero =>
    intro s u hu
    cases s with
    | nil => simp [combineFuel] at hu
    | cons t rest => simp [combineFuel] at hu
  | succ f ih =>
    intro s u hu
    cases s with
    | nil => simp [combineFuel] at hu
    | cons t rest =>
      simp only [combineFuel] at hu
      have hsub : ∀ v ∈ combineFuel f (rest.filter (fun w => !decide (w.ops = t.ops))),
          v.ops ∈ (t :: rest).map PTerm.ops := by
        intro v hv
        have h1 := ih _ v hv
        have h2 : (rest.filter (fun w => !decide (w.ops = t.ops))).map PTerm.ops
            |>.Sublist (rest.map PTerm.ops) := (List.filter_sublist _).map _
        simp only [List.map_cons, List.mem_cons]
        right
        exact h2.mem h1
      by_cases hz : gcIsZero (((rest.filter
          (fun w => decide (w.ops = t.ops))).map PTerm.coeff).foldl GC.add t.coeff)
      · rw [if_pos hz] at hu
        exact hsub u hu
      · rw [if_neg hz] at hu
        rcases List.mem_cons.1 hu with h | h
        · rw [h]
          simp
        · exact hsub u h

theorem combineFuel_nonzero : ∀ (f : ℕ) (s : List PTerm), ∀ u ∈ combineFuel f s,
    ¬ gcIsZero u.coeff := by
  intro f
  induction f with
  | zero =>
    intro s u hu
    cases s with
    | nil => simp [combineFuel] at hu
    | cons t rest => simp [combineFuel] at hu
  | succ f ih =>
    intro s u hu
    cases s with
    | nil => simp [combineFuel] at hu
    | cons t rest =>
      simp only [combineFuel] at hu
      by_cases hz : gcIsZero (((rest.filter
          (fun w => decide (w.ops = t.ops))).map PTerm.coeff).foldl GC.add t.coeff)
      · rw [if_pos hz] at hu
        exact ih _ u hu
      · rw [if_neg hz] at hu
        rcases List.mem_cons.1 hu with h | h
        · rw [h]
          exact hz
        · exact ih _ u h

theorem combineFuel_distinct : ∀ (f : ℕ) (s : List PTerm),
    (combineFuel f s).Pairwise (fun a b => a.ops ≠ b.ops) := by
  intro f
  induction f with
  | zero =>
    intro s
    cases s with
    | nil => simp [combineFuel]
    | cons t rest => simp [combineFuel]
  | succ f ih =>
    intro s
    cases s with
    | nil => simp [combineFuel]
    | cons t rest =>
      simp only [combineFuel]
      by_cases hz : gcIsZero (((rest.filter
          (fun w => decide (w.ops = t.ops))).map PTerm.coeff).foldl GC.add t.coeff)
      · rw [if_pos hz]
        exact ih _
      · rw [if_neg hz]
        refine List.Pairwise.cons ?_ (ih _)
        intro u hu
        have h1 := combineFuel_keys f _ u hu
        simp only [List.mem_map] at h1
        obtain ⟨v, hv, hveq⟩ := h1
        have hne : v.ops ≠ t.ops := by
          have hb := (List.mem_filter.1 hv).2
          have hb2 : decide (v.ops = t.ops) = false := by simpa using hb
          exact of_decide_eq_false hb2
        show t.ops ≠ u.ops
        rw [← hveq]
        exact fun h => hne h.symm

theorem combineFuel_fixpoint : ∀ (f : ℕ) (s : List PTerm), s.length ≤ f →
    s.Pairwise (fun a b => a.ops ≠ b.ops) → (∀ u ∈ s, ¬ gcIsZero u.coeff) →
    combineFuel f s = s := by
  intro f
  induction f with
  | zero =>
    intro s hlen _ _
    cases s with
    | nil => rfl
    | cons t rest => simp at hlen
  | succ f ih =>
    intro s hlen hdist hnz
    cases s with
    | nil => rfl
    | cons t rest =>
      have hhead : ∀ v ∈ rest, t.ops ≠ v.ops := (List.pairwise_cons.1 hdist).1
      have hsame : rest.filter (fun w => decide (w.ops = t.ops)) = [] := by
        rw [List.filter_eq_nil_iff]
        intro v hv
        simp only [decide_eq_true_eq]
        exact fun h => (hhead v hv) h.symm
      have hothers : rest.filter (fun w => !decide (w.ops = t.ops)) = rest := by
        rw [List.filter_eq_self]
        intro v hv
        have hvne : ¬ (v.ops = t.ops) := fun h => (hhead v hv) h.symm
        simp [hvne]
      simp only [combineFuel, hsame, hothers, List.map_nil, List.foldl_nil]
      rw [if_neg (hnz t (List.mem_cons_self _ _))]
      rw [ih rest (by simp at hlen; omega) (List.pairwise_cons.1 hdist).2
        (fun u hu => hnz u (List.mem_cons_of_mem _ hu))]

theorem psSimplify_fix (s : List PTerm)
    (hdist : s.Pairwise (fun a b => a.ops ≠ b.ops))
    (hnz : ∀ u ∈ s, ¬ gcIsZero u.coeff) (hne : s ≠ []) :
    psSimplify s = s := by
  unfold psSimplify
  rw [combineFuel_fixpoint s.length s (le_refl _) hdist hnz]
  rw [if_neg hne]

theorem psSimplify_idem (s : List PTerm) :
    psSimplify (psSimplify s) = psSimplify s := by
  by_cases hr : combineFuel s.length s = []
  · have h1 : psSimplify s = [zeroTerm] := by
      unfold psSimplify
      rw [hr]
      rfl
    rw [h1]
    decide
  · have h1 : psSimplify s = combineFuel s.length s := by
      unfold psSimplify
      rw [if_neg hr]
    rw [h1]
    exact psSimplify_fix _ (combineFuel_distinct _ _)
      (combineFuel_nonzero _ _) hr

theorem psSimplify_psMul (a b : PauliSum) :
    psSimplify (psMul a b) = psMul a b := by
  show psSimplify (psSimplify ((a.map (fun ta => b.map (fun tb => termMul ta tb))).flatten))
    = psMul a b
  rw [psSimplify_idem]
  rfl

theorem create_def (p : ℕ) : create p = operator_generator p gcNegOne := rfl

theorem kill_def (q : ℕ) : kill q = operator_generator q gcOne := rfl

/-- Claim C4: `product_ops` is the left-to-right accumulation, over the zip of
flags and indices, of the single-mode Jordan-Wigner images starting from the
identity term, simplified once at the end; and for all p, q the simplified
product `create p * kill q` equals `product_ops [p,q] [-1,+1]`. -/
theorem claim_C4_product_ops_refinement :
    (∀ (indices : List ℕ) (conjugate : List GC),
      product_ops indices conjugate
        = psSimplify ((conjugate.zip indices).foldl
            (fun ps cj => psMul ps (operator_generator cj.2 cj.1)) [identityTerm])) ∧
    (∀ p q : ℕ, psMul (create p) (kill q) = product_ops [p, q] [gcNegOne, gcOne]) := by
  constructor
  · intro indices conjugate
    rfl
  · intro p q
    have hc := opgen_eval p gcNegOne gcNegHalfImag (by decide) (by decide) (by decide)
    have hops : zr 0 p ++ [(p, Pauli.X)] ≠ zr 0 p ++ [(p, Pauli.Y)] := by
      intro h
      have := List.append_cancel_left h
      simp at this
    have hid : psMul [identityTerm]
        [(⟨gcHalf, zr 0 p ++ [(p, Pauli.X)]⟩ : PTerm),
         ⟨gcNegHalfImag, zr 0 p ++ [(p, Pauli.Y)]⟩]
        = [(⟨gcHalf, zr 0 p ++ [(p, Pauli.X)]⟩ : PTerm),
           ⟨gcNegHalfImag, zr 0 p ++ [(p, Pauli.Y)]⟩] :=
      psMul_identity_pair _ _ (show (gcOne.mul gcHalf).mul gcOne = gcHalf by decide)
        (show (gcOne.mul gcNegHalfImag).mul gcOne = gcNegHalfImag by decide) hops
        (show ¬ gcIsZero gcHalf by decide) (show ¬ gcIsZero gcNegHalfImag by decide)
    refine Eq.symm ?_
    calc product_ops [p, q] [gcNegOne, gcOne]
        = psSimplify (psMul (psMul [identityTerm] (operator_generator p gcNegOne))
            (operator_generator q gcOne)) := product_ops_pair p q gcNegOne gcOne
      _ = psSimplify (psMul (psMul [identityTerm]
            [(⟨gcHalf, zr 0 p ++ [(p, Pauli.X)]⟩ : PTerm),
             ⟨gcNegHalfImag, zr 0 p ++ [(p, Pauli.Y)]⟩])
            (operator_generator q gcOne)) := by rw [hc]
      _ = psSimplify (psMul
            [(⟨gcHalf, zr 0 p ++ [(p, Pauli.X)]⟩ : PTerm),
             ⟨gcNegHalfImag, zr 0 p ++ [(p, Pauli.Y)]⟩]
            (operator_generator q gcOne)) := by rw [hid]
      _ = psSimplify (psMul (create p) (kill q)) := by rw [← hc, ← create_def, ← kill_def]
      _ = psMul (create p) (kill q) := psSimplify_psMul _ _

theorem dnorm_zero_num (e : ℕ) : dnorm 0 e = ⟨0, 0⟩ := by
  induction e with
  | zero => rfl
  | succ e ih => simpa [dnorm] using ih

theorem dy_mul_num_zero_left (a b : Dy) (h : a.num = 0) : (a.mul b).num = 0 := by
  unfold Dy.mul
  rw [h, Int.zero_mul, dnorm_zero_num]

theorem dy_mul_num_zero_right (a b : Dy) (h : b.num = 0) : (a.mul b).num = 0 := by
  unfold Dy.mul
  rw [h, Int.mul_zero, dnorm_zero_num]

theorem dy_add_num_zero (a b : Dy) (ha : a.num = 0) (hb : b.num = 0) :
    (a.add b).num = 0 := by
  unfold Dy.add
  rw [ha, hb, Int.zero_mul, Int.zero_mul, Int.add_zero, dnorm_zero_num]

theorem dy_neg_num_zero (a : Dy) (h : a.num = 0) : a.neg.num = 0 := by
  unfold Dy.neg
  simp [h]

theorem gc_mul_real (a b : GC) (ha : a.im.num = 0) (hb : b.im.num = 0) :
    (a.mul b).im.num = 0 := by
  unfold GC.mul
  exact dy_add_num_zero _ _ (dy_mul_num_zero_right _ _ hb) (dy_mul_num_zero_left _ _ ha)

theorem gc_add_real (a b : GC) (ha : a.im.num = 0) (hb : b.im.num = 0) :
    (a.add b).im.num = 0 := by
  unfold GC.add
  exact dy_add_num_zero _ _ ha hb

theorem foldl_gc_add_real (l : List GC) : ∀ init : GC, init.im.num = 0 →
    (∀ c ∈ l, c.im.num = 0) → (l.foldl GC.add init).im.num = 0 := by
  induction l with
  | nil => intro init h _; exact h
  | cons c cs ih =>
    intro init h hl
    exact ih _ (gc_add_real _ _ h (hl c (List.mem_cons_self _ _)))
      (fun d hd => hl d (List.mem_cons_of_mem _ hd))

theorem allReal_combineFuel : ∀ (f : ℕ) (s : List PTerm), allReal s →
    allReal (combineFuel f s) := by
  intro f
  induction f with
  | zero =>
    intro s h u hu
    cases s with
    | nil => simp [combineFuel] at hu
    | cons t rest => simp [combineFuel] at hu
  | succ f ih =>
    intro s h u hu
    cases s with
    | nil => simp [combineFuel] at hu
    | cons t rest =>
      simp only [combineFuel] at hu
      have hothers : allReal (rest.filter (fun w => !decide (w.ops = t.ops))) :=
        fun v hv => h v (List.mem_cons_of_mem _ (List.mem_filter.1 hv).1)
      by_cases hz : gcIsZero (((rest.filter
          (fun w => decide (w.ops = t.ops))).map PTerm.coeff).foldl GC.add t.coeff)
      · rw [if_pos hz] at hu
        exact ih _ hothers u hu
      · rw [if_neg hz] at hu
        rcases List.mem_cons.1 hu with hcase | hcase
        · rw [hcase]
          refine foldl_gc_add_real _ _ (h t (List.mem_cons_self _ _)) ?_
          intro d hd
          simp only [List.mem_map] at hd
          obtain ⟨v, hv, hveq⟩ := hd
          rw [← hveq]
          exact h v (List.mem_cons_of_mem _ (List.mem_filter.1 hv).1)
        · exact ih _ hothers u hcase

theorem allReal_psSimplify (s : PauliSum) (h : allReal s) : allReal (psSimplify s) := by
  unfold psSimplify
  by_cases hr : combineFuel (List.length s) s = []
  · rw [hr, if_pos rfl]
    intro t ht
    rcases List.mem_cons.1 ht with h1 | h1
    · rw [h1]; rfl
    · simp at h1
  · rw [if_neg hr]
    exact allReal_combineFuel _ _ h

theorem allReal_append (a b : PauliSum) (ha : allReal a) (hb : allReal b) :
    allReal (a ++ b) := by
  intro t ht
  rcases List.mem_append.1 ht with h | h
  · exact ha t h
  · exact hb t h

theorem allReal_psAdd (a b : PauliSum) (ha : allReal a) (hb : allReal b) :
    allReal (psAdd a b) :=
  allReal_psSimplify _ (allReal_append a b ha hb)

theorem allReal_psScale (c : GC) (hc : c.im.num = 0) (s : PauliSum)
    (hs : allReal s) : allReal (psScale c s) := by
  refine allReal_psSimplify _ ?_
  intro t ht
  simp only [List.mem_map] at ht
  obtain ⟨u, hu, hueq⟩ := ht
  rw [← hueq]
  exact gc_mul_real _ _ hc (hs u hu)

theorem allReal_psSub (a b : PauliSum) (ha : allReal a) (hb : allReal b) :
    allReal (psSub a b) :=
  allReal_psAdd _ _ ha (allReal_psScale gcNegOne (by decide) _ hb)

theorem termMul_real (t u : PTerm) (ht : t.coeff.im.num = 0)
    (hu : u.coeff.im.num = 0) (hphase : (mergeOps t.ops u.ops).1 = gcOne) :
    (termMul t u).coeff.im.num = 0 := by
  show ((t.coeff.mul u.coeff).mul (mergeOps t.ops u.ops).1).im.num = 0
  rw [hphase]
  exact gc_mul_real _ _ (gc_mul_real _ _ ht hu) (by decide)

theorem scaleT_real (c : GC) (hc : c.im.num = 0) (t : PTerm)
    (ht : t.coeff.im.num = 0) : (scaleT c t).coeff.im.num = 0 :=
  gc_mul_real _ _ hc ht

theorem pauliTerm_coeff (op : Pauli) (idx : ℕ) (c : GC) :
    (pauliTerm op idx c).coeff = c := by
  cases op <;> rfl

theorem pauliTerm_mem (op : Pauli) (idx : ℕ) (c : GC) :
    ∀ p ∈ (pauliTerm op idx c).ops, p = (idx, op) := by
  cases op <;> simp [pauliTerm]

theorem opsCompat_of_bounds (xs ys : List (ℕ × Pauli)) (m : ℕ)
    (hx : ∀ p ∈ xs, p.1 < m) (hy : ∀ p ∈ ys, m ≤ p.1) : opsCompat xs ys :=
  fun n a b ha hb => absurd (hx (n, a) ha) (Nat.not_lt.2 (hy (n, b) hb))

theorem keysBelow_merge (xs ys : List (ℕ × Pauli)) (m : ℕ)
    (hx : ∀ p ∈ xs, p.1 < m) (hy : ∀ p ∈ ys, p.1 < m) :
    ∀ p ∈ (mergeOps xs ys).2, p.1 < m := by
  intro p hp
  rcases mergeOps_keys xs ys p hp with h | h
  · simp only [List.mem_map] at h
    obtain ⟨q, hq, hqe⟩ := h
    rw [← hqe]
    exact hx q hq
  · simp only [List.mem_map] at h
    obtain ⟨q, hq, hqe⟩ := h
    rw [← hqe]
    exact hy q hq

theorem termMul_ops (t u : PTerm) : (termMul t u).ops = (mergeOps t.ops u.ops).2 := rfl

theorem zchain_coeff_real (s len : ℕ) : (zchainRange s len).coeff.im.num = 0 := by
  rw [zchain_eq]
  rfl

theorem zchain_ops (s len : ℕ) : (zchainRange s len).ops = zr s len := by
  rw [zchain_eq]

theorem pauliTerm_real (op : Pauli) (idx : ℕ) (c : GC) (hc : c.im.num = 0) :
    (pauliTerm op idx c).coeff.im.num = 0 := by
  rw [pauliTerm_coeff]
  exact hc

theorem jw4Operator_real (a b c d : ℕ) (oa ob oc od : Pauli)
    (hab : a < b) (hbc : b < c) (hcd : c < d) :
    (jw4Operator [(a, oa), (b, ob), (c, oc), (d, od)]).coeff.im.num = 0 := by
  have hone : (gcOne : GC).im.num = 0 := rfl
  have hA : ∀ p ∈ (pauliTerm oa a gcOne).ops, p.1 < a + 1 := by
    intro p hp
    rw [pauliTerm_mem oa a gcOne p hp]
    omega
  have hZ1lb : ∀ p ∈ (zchainRange (a + 1) (b - (a + 1))).ops, a + 1 ≤ p.1 := by
    rw [zchain_ops]
    intro p hp
    exact (mem_zr hp).1.1
  have hZ1ub : ∀ p ∈ (zchainRange (a + 1) (b - (a + 1))).ops, p.1 < b := by
    rw [zchain_ops]
    intro p hp
    have := (mem_zr hp).1.2
    omega
  have ht1real : (termMul (pauliTerm oa a gcOne)
      (zchainRange (a + 1) (b - (a + 1)))).coeff.im.num = 0 :=
    termMul_real _ _ (pauliTerm_real _ _ _ hone) (zchain_coeff_real _ _)
      (mergeOps_phase_one _ _ (opsCompat_of_bounds _ _ (a + 1) hA hZ1lb))
  have ht1keys : ∀ p ∈ (termMul (pauliTerm oa a gcOne)
      (zchainRange (a + 1) (b - (a + 1)))).ops, p.1 < b := by
    rw [termMul_ops]
    exact keysBelow_merge _ _ b (fun p hp => by
      rw [pauliTerm_mem oa a gcOne p hp]; exact hab) hZ1ub
  have ht2real : (termMul (termMul (pauliTerm oa a gcOne)
      (zchainRange (a + 1) (b - (a + 1)))) (pauliTerm ob b gcOne)).coeff.im.num = 0 :=
    termMul_real _ _ ht1real (pauliTerm_real _ _ _ hone)
      (mergeOps_phase_one _ _ (opsCompat_of_bounds _ _ b ht1keys (fun p hp => by
        rw [pauliTerm_mem ob b gcOne p hp])))
  have ht2keys : ∀ p ∈ (termMul (termMul (pauliTerm oa a gcOne)
      (zchainRange (a + 1) (b - (a + 1)))) (pauliTerm ob b gcOne)).ops,
      p.1 < b + 1 := by
    rw [termMul_ops]
    exact keysBelow_merge _ _ (b + 1) (fun p hp => Nat.lt_succ_of_lt (ht1keys p hp))
      (fun p hp => by rw [pauliTerm_mem ob b gcOne p hp]; omega)
  have ht3real : (termMul (termMul (termMul (pauliTerm oa a gcOne)
      (zchainRange (a + 1) (b - (a + 1)))) (pauliTerm ob b gcOne))
      (pauliTerm oc c gcOne)).coeff.im.num = 0 :=
    termMul_real _ _ ht2real (pauliTerm_real _ _ _ hone)
      (mergeOps_phase_one _ _ (opsCompat_of_bounds _ _ (b + 1) ht2keys (fun p hp => by
        rw [pauliTerm_mem oc c gcOne p hp]; omega)))
  have ht3keys : ∀ p ∈ (termMul (termMul (termMul (pauliTerm oa a gcOne)
      (zchainRange (a + 1) (b - (a + 1)))) (pauliTerm ob b gcOne))
      (pauliTerm oc c gcOne)).ops, p.1 < c + 1 := by
    rw [termMul_ops]
    exact keysBelow_merge _ _ (c + 1) (fun p hp => by
        have := ht2keys p hp; omega)
      (fun p hp => by rw [pauliTerm_mem oc c gcOne p hp]; omega)
  have hZ2lb : ∀ p ∈ (zchainRange (c + 1) (d - (c + 1))).ops, c + 1 ≤ p.1 := by
    rw [zchain_ops]
    intro p hp
    exact (mem_zr hp).1.1
  have hZ2ub : ∀ p ∈ (zchainRange (c + 1) (d - (c + 1))).ops, p.1 < d := by
    rw [zchain_ops]
    intro p hp
    have := (mem_zr hp).1.2
    omega
  have ht4real : (termMul (termMul (termMul (termMul (pauliTerm oa a gcOne)
      (zchainRange (a + 1) (b - (a + 1)))) (pauliTerm ob b gcOne))
      (pauliTerm oc c gcOne)) (zchainRange (c + 1) (d - (c + 1)))).coeff.im.num = 0 :=
    termMul_real _ _ ht3real (zchain_coeff_real _ _)
      (mergeOps_phase_one _ _ (opsCompat_of_bounds _ _ (c + 1) ht3keys hZ2lb))
  have ht4keys : ∀ p ∈ (termMul (termMul (termMul (termMul (pauliTerm oa a gcOne)
      (zchainRange (a + 1) (b - (a + 1)))) (pauliTerm ob b gcOne))
      (pauliTerm oc c gcOne)) (zchainRange (c + 1) (d - (c + 1)))).ops,
      p.1 < d := by
    rw [termMul_ops]
    exact keysBelow_merge _ _ d (fun p hp => by
        have := ht3keys p hp; omega) hZ2ub
  show (termMul (termMul (termMul (termMul (termMul (pauliTerm oa a gcOne)
      (zchainRange (a + 1) (b - (a + 1)))) (pauliTerm ob b gcOne))
      (pauliTerm oc c gcOne)) (zchainRange (c + 1) (d - (c + 1))))
      (pauliTerm od d gcOne)).coeff.im.num = 0
  exact termMul_real _ _ ht4real (pauliTerm_real _ _ _ hone)
    (mergeOps_phase_one _ _ (opsCompat_of_bounds _ _ d ht4keys (fun p hp => by
      rw [pauliTerm_mem od d gcOne p hp])))

theorem list_len4 {α : Type} (l : List α) (h : l.length = 4) :
    ∃ p1 p2 p3 p4, l = [p1, p2, p3, p4] := by
  cases l with
  | nil => simp at h
  | cons x1 t1 =>
    cases t1 with
    | nil => simp at h
    | cons x2 t2 =>
      cases t2 with
      | nil => simp at h
      | cons x3 t3 =>
        cases t3 with
        | nil => simp at h
        | cons x4 t4 =>
          cases t4 with
          | nil => exact ⟨x1, x2, x3, x4, rfl⟩
          | cons x5 t5 => simp at h

theorem twoBody4Step_real (i j k l : ℕ) (hij : i ≠ j) (hik : i ≠ k)
    (hil : i ≠ l) (hjk : j ≠ k) (hjl : j ≠ l) (hkl : k ≠ l)
    (ps : PauliSum) (hps : allReal ps) (tri : Pauli × Pauli × Pauli) :
    allReal (twoBody4Step i j k l ps tri) := by
  obtain ⟨op1, op2, op3⟩ := tri
  have hperm := List.perm_insertionSort keyLe
    [(i, op1), (j, op2), (k, op3),
     (l, if ([op1, op2, op3].count Pauli.X) % 2 = 1 then Pauli.X else Pauli.Y)]
  have hlen : (List.insertionSort keyLe
      [(i, op1), (j, op2), (k, op3),
       (l, if ([op1, op2, op3].count Pauli.X) % 2 = 1 then Pauli.X
         else Pauli.Y)]).length = 4 := by
    rw [hperm.length_eq]
    rfl
  obtain ⟨p1, p2, p3, p4, hs⟩ := list_len4 _ hlen
  obtain ⟨a, oa⟩ := p1
  obtain ⟨b, ob⟩ := p2
  obtain ⟨c, oc⟩ := p3
  obtain ⟨d, od⟩ := p4
  have hsorted := List.sorted_insertionSort keyLe
    [(i, op1), (j, op2), (k, op3),
     (l, if ([op1, op2, op3].count Pauli.X) % 2 = 1 then Pauli.X else Pauli.Y)]
  rw [hs] at hsorted
  simp only [List.sorted_cons, List.mem_cons, List.mem_singleton, List.sorted_nil,
    forall_eq_or_imp, forall_eq, List.not_mem_nil, false_implies, implies_true,
    and_true, keyLe] at hsorted
  have hkeys : ((List.insertionSort keyLe
      [(i, op1), (j, op2), (k, op3),
       (l, if ([op1, op2, op3].count Pauli.X) % 2 = 1 then Pauli.X
         else Pauli.Y)]).map Prod.fst).Nodup := by
    refine (List.Perm.nodup_iff (hperm.map Prod.fst)).2 ?_
    simp [hij, hik, hil, hjk, hjl, hkl]
  rw [hs] at hkeys
  simp only [List.map_cons, List.map_nil, List.nodup_cons, List.mem_cons,
    List.mem_singleton, List.not_mem_nil, not_or] at hkeys
  have hab : a < b := Nat.lt_of_le_of_ne hsorted.1.1 hkeys.1.1
  have hbc : b < c := Nat.lt_of_le_of_ne hsorted.2.1.1 hkeys.2.1.1
  have hcd : c < d := Nat.lt_of_le_of_ne hsorted.2.2 hkeys.2.2.1.1
  unfold twoBody4Step
  dsimp only
  rw [hs]
  refine allReal_psAdd _ _ hps ?_
  intro t ht
  rcases List.mem_cons.1 ht with h | h
  · rw [h]
    refine scaleT_real _ ?_ _ (jw4Operator_real a b c d oa ob oc od hab hbc hcd)
    split
    · split
      · decide
      · decide
    · split
      · decide
      · decide
  · simp at h

theorem twoBody3Step_real (i j k l a b c : ℕ) (hab : a < b) (hca : c ≠ a)
    (hcb : c ≠ b) (op : Pauli) (hop : op ≠ Pauli.I) (ps : PauliSum)
    (hps : allReal ps) : allReal (twoBody3Step i j k l a b c ps op) := by
  have hsand := sandwich_eq a b hab op hop
  have hform : twoBody3Step i j k l a b c ps op
      = psAdd (psSub ps [termMul (pauliTerm Pauli.Z c gcOne)
          (scaleT (if i = l ∨ j = k then gcQuarter else gcNegQuarter)
            ⟨gcOne, (a, op) :: zr (a + 1) (b - (a + 1)) ++ [(b, op)]⟩)])
        [scaleT (if i = l ∨ j = k then gcQuarter else gcNegQuarter)
          ⟨gcOne, (a, op) :: zr (a + 1) (b - (a + 1)) ++ [(b, op)]⟩] := by
    unfold twoBody3Step
    dsimp only
    rw [hsand]
  rw [hform]
  have hcoeff : (if i = l ∨ j = k then gcQuarter else gcNegQuarter).im.num = 0 := by
    split
    · decide
    · decide
  have hhop : (scaleT (if i = l ∨ j = k then gcQuarter else gcNegQuarter)
      (⟨gcOne, (a, op) :: zr (a + 1) (b - (a + 1)) ++ [(b, op)]⟩ : PTerm)).coeff.im.num
      = 0 := scaleT_real _ hcoeff _ rfl
  have hcompat : opsCompat [(c, Pauli.Z)]
      ((a, op) :: zr (a + 1) (b - (a + 1)) ++ [(b, op)]) := by
    intro n α β hα hβ
    have hn : n = c ∧ α = Pauli.Z := by
      simpa [Prod.ext_iff] using hα
    obtain ⟨rfl, rfl⟩ := hn
    rcases List.mem_cons.1 hβ with h | h
    · exfalso
      exact hca (congrArg Prod.fst h)
    · rcases List.mem_append.1 h with h2 | h2
      · exact ((mem_zr h2).2).symm
      · exfalso
        have : (n, β) = (b, op) := by simpa using h2
        exact hcb (congrArg Prod.fst this)
  refine allReal_psAdd _ _ (allReal_psSub _ _ hps ?_) ?_
  · intro t ht
    rcases List.mem_cons.1 ht with h | h
    · rw [h]
      exact termMul_real _ _ (pauliTerm_real _ _ _ rfl) hhop
        (mergeOps_phase_one _ _ hcompat)
    · simp at h
  · intro t ht
    rcases List.mem_cons.1 ht with h | h
    · rw [h]
      exact hhop
    · simp at h

theorem allReal_singleton (t : PTerm) (h : t.coeff.im.num = 0) : allReal [t] := by
  intro u hu
  rcases List.mem_cons.1 hu with h1 | h1
  · rw [h1]
    exact h
  · simp at h1

theorem allReal_foldl {α : Type} (step : PauliSum → α → PauliSum)
    (hstep : ∀ ps x, allReal ps → allReal (step ps x)) :
    ∀ (l : List α) (init : PauliSum), allReal init →
      allReal (List.foldl step init l)
  | [], _, h => h
  | x :: xs, init, h => allReal_foldl step hstep xs _ (hstep init x h)

theorem dedup_len_abab (x y : ℕ) (hxy : x ≠ y) :
    ([x, y, x, y] : List ℕ).dedup.length = 2 := by
  rw [List.dedup_cons_of_mem (by simp), List.dedup_cons_of_mem (by simp),
    List.dedup_cons_of_not_mem (by simp [hxy]),
    List.dedup_cons_of_not_mem (by simp)]
  rfl

theorem dedup_len_abba (x y : ℕ) (hxy : x ≠ y) :
    ([x, y, y, x] : List ℕ).dedup.length = 2 := by
  rw [List.dedup_cons_of_mem (by simp), List.dedup_cons_of_mem (by simp),
    List.dedup_cons_of_not_mem (by simp [Ne.symm hxy]),
    List.dedup_cons_of_not_mem (by simp)]
  rfl

theorem opsCompat_zz (m1 m2 : ℕ) :
    opsCompat [(m1, Pauli.Z)] [(m2, Pauli.Z)] := by
  intro n α β hα hβ
  have h1 : α = Pauli.Z := by
    have : (n, α) = (m1, Pauli.Z) := by simpa using hα
    exact congrArg Prod.snd this
  have h2 : β = Pauli.Z := by
    have : (n, β) = (m2, Pauli.Z) := by simpa using hβ
    exact congrArg Prod.snd this
  rw [h1, h2]

theorem one_body_allReal (i j : ℕ) : allReal (one_body_term i j) := by
  unfold one_body_term
  dsimp only
  by_cases hij : min i j ≠ max i j
  · rw [if_pos hij]
    have hlt : min i j < max i j := Nat.lt_of_le_of_ne min_le_max hij
    have hx := sandwich_eq (min i j) (max i j) hlt Pauli.X (by simp)
    have hy := sandwich_eq (min i j) (max i j) hlt Pauli.Y (by simp)
    simp only [List.foldl_cons, List.foldl_nil]
    rw [hx, hy]
    refine allReal_psScale _ (by decide) _ ?_
    refine allReal_psAdd _ _ (allReal_psAdd _ _ ?_ ?_) ?_
    · exact allReal_singleton _ rfl
    · exact allReal_singleton _ rfl
    · exact allReal_singleton _ rfl
  · rw [if_neg hij]
    exact allReal_psAdd _ _ (allReal_singleton _ (pauliTerm_real _ _ _ rfl))
      (allReal_singleton _ (pauliTerm_real _ _ _ rfl))

theorem two_body_allReal (i j k l : ℕ) : allReal (two_body_term i j k l) := by
  unfold two_body_term
  dsimp only
  by_cases hdeg : i = j ∨ k = l
  · rw [if_pos hdeg]
    exact allReal_singleton _ rfl
  · rw [if_neg hdeg]
    have hij : i ≠ j := fun h => hdeg (Or.inl h)
    have hkl : k ≠ l := fun h => hdeg (Or.inr h)
    by_cases h4 : ([i, j, k, l] : List ℕ).dedup.length = 4
    · rw [if_pos h4]
      have heq : ([i, j, k, l] : List ℕ).dedup = [i, j, k, l] :=
        (List.dedup_sublist _).eq_of_length (by rw [h4]; rfl)
      have hnodup : ([i, j, k, l] : List ℕ).Nodup := by
        rw [← heq]
        exact List.nodup_dedup _
      simp only [List.nodup_cons, List.mem_cons, List.mem_singleton,
        List.not_mem_nil, not_or, or_false] at hnodup
      obtain ⟨⟨hij2, hik, hil⟩, ⟨hjk, hjl⟩, hkl2, -⟩ := hnodup
      exact allReal_foldl _ (fun ps tri hps =>
        twoBody4Step_real i j k l hij2 hik hil hjk hjl hkl2 ps hps tri)
        xyTriples [identityTerm] (allReal_singleton _ rfl)
    · rw [if_neg h4]
      by_cases h3 : ([i, j, k, l] : List ℕ).dedup.length = 3
      · rw [if_pos h3]
        by_cases hik : i = k
        · rw [if_pos hik]
          dsimp only
          have hjl2 : j ≠ l := by
            intro hjleq
            rw [← hik, ← hjleq] at h3
            rw [dedup_len_abab i j hij] at h3
            exact absurd h3 (by decide)
          have hil2 : i ≠ l := fun h => hkl (hik.symm.trans h)
          have hab : min j l < max j l := min_lt_max.2 hjl2
          have hca : i ≠ min j l := by
            rcases min_choice j l with hm | hm <;> rw [hm]
            · exact hij
            · exact hil2
          have hcb : i ≠ max j l := by
            rcases max_choice j l with hm | hm <;> rw [hm]
            · exact hij
            · exact hil2
          simp only [List.foldl_cons, List.foldl_nil]
          exact twoBody3Step_real i j k l (min j l) (max j l) i hab hca hcb
            Pauli.Y (by simp) _ (twoBody3Step_real i j k l (min j l) (max j l) i
              hab hca hcb Pauli.X (by simp) _ (allReal_singleton _ rfl))
        · rw [if_neg hik]
          by_cases hil : i = l
          · rw [if_pos hil]
            dsimp only
            have hjk2 : j ≠ k := by
              intro hjkeq
              rw [← hil, ← hjkeq] at h3
              rw [dedup_len_abba i j hij] at h3
              exact absurd h3 (by decide)
            have hab : min j k < max j k := min_lt_max.2 hjk2
            have hca : i ≠ min j k := by
              rcases min_choice j k with hm | hm <;> rw [hm]
              · exact hij
              · exact hik
            have hcb : i ≠ max j k := by
              rcases max_choice j k with hm | hm <;> rw [hm]
              · exact hij
              · exact hik
            simp only [List.foldl_cons, List.foldl_nil]
            exact twoBody3Step_real i j k l (min j k) (max j k) i hab hca hcb
              Pauli.Y (by simp) _ (twoBody3Step_real i j k l (min j k) (max j k) i
                hab hca hcb Pauli.X (by simp) _ (allReal_singleton _ rfl))
          · rw [if_neg hil]
            by_cases hjk : j = k
            · rw [if_pos hjk]
              dsimp only
              have hjl2 : j ≠ l := fun h => hkl (hjk.symm.trans h)
              have hab : min i l < max i l := min_lt_max.2 hil
              have hca : j ≠ min i l := by
                rcases min_choice i l with hm | hm <;> rw [hm]
                · exact Ne.symm hij
                · exact hjl2
              have hcb : j ≠ max i l := by
                rcases max_choice i l with hm | hm <;> rw [hm]
                · exact Ne.symm hij
                · exact hjl2
              simp only [List.foldl_cons, List.foldl_nil]
              exact twoBody3Step_real i j k l (min i l) (max i l) j hab hca hcb
                Pauli.Y (by simp) _ (twoBody3Step_real i j k l (min i l) (max i l) j
                  hab hca hcb Pauli.X (by simp) _ (allReal_singleton _ rfl))
            · rw [if_neg hjk]
              dsimp only
              have hab : min i k < max i k := min_lt_max.2 hik
              have hca : j ≠ min i k := by
                rcases min_choice i k with hm | hm <;> rw [hm]
                · exact Ne.symm hij
                · exact hjk
              have hcb : j ≠ max i k := by
                rcases max_choice i k with hm | hm <;> rw [hm]
                · exact Ne.symm hij
                · exact hjk
              simp only [List.foldl_cons, List.foldl_nil]
              exact twoBody3Step_real i j k l (min i k) (max i k) j hab hca hcb
                Pauli.Y (by simp) _ (twoBody3Step_real i j k l (min i k) (max i k) j
                  hab hca hcb Pauli.X (by simp) _ (allReal_singleton _ rfl))
      · rw [if_neg h3]
        by_cases h2 : ([i, j, k, l] : List ℕ).dedup.length = 2
        · rw [if_pos h2]
          have hco : (if i = l then gcNegHalf else gcHalf).im.num = 0 := by
            split
            · decide
            · decide
          refine allReal_psSub _ _ (allReal_psAdd _ _ (allReal_psAdd _ _
            (allReal_psSub _ _ (allReal_singleton _ rfl)
              (allReal_singleton _ hco))
            (allReal_singleton _ (pauliTerm_real _ _ _ hco)))
            (allReal_singleton _ (pauliTerm_real _ _ _ hco)))
            (allReal_singleton _ ?_)
          refine termMul_real _ _ (scaleT_real _ hco _ (pauliTerm_real _ _ _ rfl))
            (pauliTerm_real _ _ _ rfl) (mergeOps_phase_one _ _ ?_)
          exact opsCompat_zz (min i j) (max i j)
        · rw [if_neg h2]
          exact allReal_singleton _ rfl

/-- Claim C7: for all mode indices, the Pauli sums returned by
`one_body_term` and `two_body_term` are Hermitian: every coefficient of the
(like-term-combined) result has zero imaginary part. -/
theorem claim_C7_hermitian_real_coefficients :
    (∀ i j : ℕ, allReal (one_body_term i j)) ∧
    (∀ i j k l : ℕ, allReal (two_body_term i j k l)) :=
  ⟨one_body_allReal, two_body_allReal⟩

theorem pyMul_foldl_sum (z : List (GC × ℕ)) : ∀ s : PauliSum,
    z.foldl (fun p cj => pyMul p (operator_generator cj.2 cj.1)) (PyPauli.sum s)
      = PyPauli.sum (z.foldl
          (fun ps cj => psMul ps (operator_generator cj.2 cj.1)) s) := by
  induction z with
  | nil => intro s; rfl
  | cons c cs ih =>
    intro s
    simp only [List.foldl_cons]
    exact ih (psMul s (operator_generator c.2 c.1))

theorem product_ops_py_nonempty (indices : List ℕ) (conjugate : List GC)
    (hi : indices ≠ []) (hc : conjugate ≠ []) :
    product_ops_py indices conjugate = some (product_ops indices conjugate) := by
  cases indices with
  | nil => exact absurd rfl hi
  | cons x xs =>
    cases conjugate with
    | nil => exact absurd rfl hc
    | cons c cs =>
      unfold product_ops_py product_ops
      simp only [List.zip_cons_cons, List.foldl_cons]
      rw [show pyMul (PyPauli.term identityTerm) (operator_generator x c)
          = PyPauli.sum (psMul [identityTerm] (operator_generator x c)) from rfl]
      rw [pyMul_foldl_sum]
      rfl

/-- Claim C10 (refuted as stated): with both input lists empty the
accumulator is still a pyquil `PauliTerm` when the final `.simplify()` is
called, and `PauliTerm` has no `simplify` method, so `product_ops([], [])`
raises AttributeError (modelled `none`) instead of returning the identity
Pauli term with coefficient 1. -/
theorem claim_C10_empty_simplify_attribute_error :
    product_ops_py [] [] = none ∧ product_ops_py [] [] ≠ some [identityTerm] :=
  ⟨rfl, by decide⟩

/-- Claim C10 as amended: `product_ops` consumes exactly the first
`min (length indices) (length conjugate)` index/flag pairs and silently
ignores the excess elements of the longer list; whenever both lists are
non-empty it raises no error and returns the simplified left-to-right
product; but when `zip(conjugate, indices)` is empty — in particular for
`product_ops([], [])` — the final `pterm.simplify()` is attempted on a
`PauliTerm`, which lacks that method, and the call raises instead of
returning the identity term. -/
theorem claim_C10_product_ops_amended :
    (∀ (indices : List ℕ) (conjugate : List GC),
      product_ops_py indices conjugate
        = product_ops_py
            (indices.take (min (List.length indices) (List.length conjugate)))
            (conjugate.take (min (List.length indices) (List.length conjugate)))) ∧
    (∀ (indices : List ℕ) (conjugate : List GC), indices ≠ [] → conjugate ≠ [] →
      product_ops_py indices conjugate = some (product_ops indices conjugate)) ∧
    product_ops_py [] [] = none := by
  refine ⟨?_, product_ops_py_nonempty, rfl⟩
  intro indices conjugate
  unfold product_ops_py
  rw [zip_take_eq conjugate indices]
  rw [Nat.min_comm (List.length conjugate) (List.length indices)]

theorem claim_C10_amended_witness :
    ([0] : List ℕ) ≠ [] ∧ ([gcOne] : List GC) ≠ [] ∧
    product_ops_py [0] [gcOne] = some (product_ops [0] [gcOne]) :=
  ⟨by decide, by decide,
    claim_C10_product_ops_amended.2.1 [0] [gcOne] (by decide) (by decide)⟩
